import Mathlib

/-!
Verification development for the Agentic-Honeypot repository.

The frontend sources (`frontend/src/App.jsx`, `frontend/src/SessionContext.jsx`,
the demo client and analyst-console utilities) are embedded shallowly: strings
are `List Char`, the JavaScript regular expressions used by the intel extractor
are modelled as explicit matchers, and the global-match (`/g`) scanning
discipline of `String.prototype.match` is an explicit left-to-right scanner.
Stateful React components are modelled as pure state-transition functions.
-/

namespace HP

/- ================================================================
   Character classes (JS regex semantics, ASCII as used by the app)
   ================================================================ -/

/-- JS `\d`. -/
def isDigitC (c : Char) : Bool := c.isDigit

/-- JS `\w`, i.e. `[A-Za-z0-9_]`; used by the word-boundary `\b` checks. -/
def isWordC (c : Char) : Bool := c.isAlphanum || c == '_'

/-- JS whitespace (`\s`) restricted to the ASCII space characters that can
occur in the app's inputs; the newline is the one that matters, since
`deriveIntel` joins messages with `"\n"`. -/
def isSpaceC (c : Char) : Bool :=
  c == ' ' || c == '\t' || c == '\n' || c == '\r' || c == '\x0b' || c == '\x0c'

/-- Character class of the first part of the UPI regex
`[a-zA-Z0-9.\-_]` in `extractEntitiesFromText` (App.jsx). -/
def isUpiChar (c : Char) : Bool := c.isAlphanum || c == '.' || c == '-' || c == '_'

/- ================================================================
   A small pattern layer: each JS regex is compiled by hand into a
   matcher that, at one starting position, either fails or returns
   the matched characters together with the rest of the input.  The
   compilation follows the backtracking semantics of the concrete
   regexes (justified case by case in comments).
   ================================================================ -/

/-- A pattern applied at one position: on success returns the consumed
characters and the remaining input. -/
abbrev Pat : Type := List Char → Option (List Char × List Char)

/-- Match the empty string. -/
def pEps : Pat := fun s => some ([], s)

/-- Match one character satisfying `p`. -/
def pCharP (p : Char → Bool) : Pat := fun s =>
  match s with
  | [] => none
  | c :: cs => if p c then some ([c], cs) else none

/-- Match one literal character. -/
def pChar (c : Char) : Pat := pCharP (fun d => d == c)

/-- Sequencing of two patterns. -/
def pThen (f g : Pat) : Pat := fun s =>
  match f s with
  | some (v, r) =>
    match g r with
    | some (w, r2) => some (v ++ w, r2)
    | none => none
  | none => none

/-- Ordered alternation, first pattern preferred (JS `|`). -/
def pAlt (f g : Pat) : Pat := fun s =>
  match f s with
  | some r => some r
  | none => g s

/-- Match a literal string. -/
def pStr : List Char → Pat
  | [] => pEps
  | c :: cs => pThen (pChar c) (pStr cs)

/-- Match exactly `n` characters of class `p` (JS `p{n}` with no
backtracking opportunity, as in `\d{10}`). -/
def pCount : Nat → (Char → Bool) → Pat
  | 0, _ => pEps
  | n + 1, p => pThen (pCharP p) (pCount n p)

/-- Greedily match a maximal run of class `p`, requiring at least `n`
characters (JS `p{n,}` / `p+` when nothing after the run can force
backtracking into it). -/
def pTakeWhileMin (n : Nat) (p : Char → Bool) : Pat := fun s =>
  if n ≤ (s.takeWhile p).length then some (s.takeWhile p, s.dropWhile p) else none

/- ================================================================
   The four matchers of extractEntitiesFromText (App.jsx 102-116)
   ================================================================ -/

/-- Regex `[a-zA-Z0-9.\-_]{2,}@[a-zA-Z]{2,}` (UPI ids).  `@` is not in the
first class, so the greedy first run ends right before a possible `@` and
backtracking can never succeed where this compilation fails. -/
def upiPat : Pat :=
  pThen (pTakeWhileMin 2 isUpiChar) (pThen (pChar '@') (pTakeWhileMin 2 (fun c => c.isAlpha)))

def matchUpi (_prev : Option Char) (s : List Char) : Option (List Char) :=
  (upiPat s).map Prod.fst

/-- Whether the previous character fails JS `(?<!\d)` (start of input counts). -/
def prevNotDigit : Option Char → Bool
  | none => true
  | some c => !c.isDigit

/-- Third phone alternative `(?<!\d)\d{10}(?!\d)`: a maximal digit run of
length exactly 10 whose preceding character is not a digit. -/
def phoneTen (prev : Option Char) (s : List Char) : Option (List Char) :=
  if prevNotDigit prev = true ∧ (s.takeWhile isDigitC).length = 10 then
    some (s.takeWhile isDigitC)
  else none

/-- First two phone alternatives `\+?91\d{10}` and `\+\d{10,}`.  `\+?91` is
expanded into the two literal prefixes `+91` and `91` in JS preference
order (when `+91` is present at the position, trying `91` there would fail
anyway, so the expansion is exact). -/
def phonePat : Pat :=
  pAlt (pThen (pStr ('+' :: '9' :: '1' :: [])) (pCount 10 isDigitC))
    (pAlt (pThen (pStr ('9' :: '1' :: [])) (pCount 10 isDigitC))
      (pThen (pChar '+') (pTakeWhileMin 10 isDigitC)))

/-- Regex `\+?91\d{10}|\+\d{10,}|(?<!\d)\d{10}(?!\d)` (phone numbers). -/
def matchPhone (prev : Option Char) (s : List Char) : Option (List Char) :=
  match (phonePat s).map Prod.fst with
  | some v => some v
  | none => phoneTen prev s

/-- Regex `https?:\/\/\S+` (links).  `https://` is tried before the
backtracked `http://`; when `https://` is present but no `\S` follows,
the `http://` reading fails as well (`s` is where `:` is expected). -/
def linkPat : Pat :=
  pAlt (pThen (pStr ('h' :: 't' :: 't' :: 'p' :: 's' :: ':' :: '/' :: '/' :: []))
      (pTakeWhileMin 1 (fun c => !isSpaceC c)))
    (pThen (pStr ('h' :: 't' :: 't' :: 'p' :: ':' :: '/' :: '/' :: []))
      (pTakeWhileMin 1 (fun c => !isSpaceC c)))

def matchLink (_prev : Option Char) (s : List Char) : Option (List Char) :=
  (linkPat s).map Prod.fst

/-- Whether the previous character gives a word boundary before a digit
(start of input counts as a boundary). -/
def prevNonWord : Option Char → Bool
  | none => true
  | some c => !isWordC c

/-- Whether the input that follows a digit run gives a word boundary. -/
def nextNonWord : List Char → Bool
  | [] => true
  | c :: _ => !isWordC c

/-- Regex `\b\d{8,16}\b` (bank accounts).  Because `\d{8,16}` is greedy and
every digit is a word character, a match must cover a maximal digit run of
length 8 to 16 whose neighbours on both sides are non-word characters;
runs longer than 16 digits can never satisfy the trailing `\b`. -/
def matchAccount (prev : Option Char) (s : List Char) : Option (List Char) :=
  if prevNonWord prev = true ∧ 8 ≤ (s.takeWhile isDigitC).length ∧
      (s.takeWhile isDigitC).length ≤ 16 ∧ nextNonWord (s.dropWhile isDigitC) = true then
    some (s.takeWhile isDigitC)
  else none

/- ================================================================
   Global-match scanning: String.prototype.match(/…/g) finds
   successive leftmost matches; on a match it continues right after
   it, otherwise it advances one position.  `prev` is the character
   immediately before the current position (for lookbehind / \b);
   the skip counter makes the recursion structural.
   ================================================================ -/

def scanAux (M : Option Char → List Char → Option (List Char)) :
    List Char → Nat → Option Char → List (List Char)
  | [], _, _ => []
  | c :: cs, k + 1, _ => scanAux M cs k (some c)
  | c :: cs, 0, prev =>
    match M prev (c :: cs) with
    | some v => v :: scanAux M cs (v.length - 1) (some c)
    | none => scanAux M cs 0 (some c)

/-- All matches of `M` in `s`, in order (the JS `text.match(re) || []`). -/
def scanText (M : Option Char → List Char → Option (List Char)) (s : List Char) :
    List (List Char) :=
  scanAux M s 0 none

/- ================================================================
   uniqueList and the intel bundle (App.jsx 98-121)
   ================================================================ -/

/-- Accumulator form of JS `[...new Set(arr)]`: keep first occurrences. -/
def uniqueAux {α : Type} [DecidableEq α] : List α → List α → List α
  | _, [] => []
  | seen, x :: xs => if x ∈ seen then uniqueAux seen xs else x :: uniqueAux (x :: seen) xs

/-- JS `uniqueList(arr) = [...new Set(arr)]`. -/
def uniqueList {α : Type} [DecidableEq α] (l : List α) : List α := uniqueAux [] l

/-- Trailing-punctuation strip applied to links:
`l.replace(/[),.;:!?]+$/, "")`. -/
def isClosePunct (c : Char) : Bool :=
  c == ')' || c == ',' || c == '.' || c == ';' || c == ':' || c == '!' || c == '?'

def stripTrailingPunct (l : List Char) : List Char :=
  (l.reverse.dropWhile isClosePunct).reverse

/-- The cumulative intelligence bundle of the live-analysis console. -/
@[ext]
structure Intel where
  upiIds : List (List Char)
  phoneNumbers : List (List Char)
  phishingLinks : List (List Char)
  bankAccounts : List (List Char)
deriving DecidableEq, Repr

/-- `extractEntitiesFromText` (App.jsx 102-116): the four regex passes,
each deduplicated; links lose trailing punctuation, digit runs of length
exactly 10 are excluded from bank accounts (`a.length !== 10`). -/
def extractEntitiesFromText (text : List Char) : Intel :=
  { upiIds := uniqueList (scanText matchUpi text)
    phoneNumbers := uniqueList (scanText matchPhone text)
    phishingLinks := uniqueList ((scanText matchLink text).map stripTrailingPunct)
    bankAccounts :=
      uniqueList ((scanText matchAccount text).filter (fun a => a.length != 10)) }

/-- One chat message of the live-analysis console (`role`, `text`, `time`). -/
structure ChatMessage where
  role : List Char
  text : List Char
  time : Nat
deriving DecidableEq, Repr

/-- JS `Array.prototype.join(sep)` on a list of strings. -/
def joinWith (sep : List Char) : List (List Char) → List Char
  | [] => []
  | [x] => x
  | x :: xs => x ++ sep ++ joinWith sep xs

/-- The newline-joined text of all messages, as in `deriveIntel`. -/
def joinTexts (ms : List ChatMessage) : List Char :=
  joinWith ('\n' :: []) (ms.map ChatMessage.text)

/-- `deriveIntel` (App.jsx 118-121). -/
def deriveIntel (ms : List ChatMessage) : Intel :=
  extractEntitiesFromText (joinTexts ms)

/- ================================================================
   Tactics and risk (App.jsx 53-96, 123-152)
   ================================================================ -/

/-- One entry of `TACTIC_DEFS`; the purely presentational `icon` and `css`
fields are omitted (they never feed detection or scoring). -/
structure TacticDef where
  id : List Char
  label : List Char
  words : List (List Char)
deriving DecidableEq, Repr

def tacticDefs : List TacticDef :=
  [ { id := ("urgency".data), label := ("Urgency".data),
      words := [("urgent".data), ("immediately".data), ("asap".data), ("now".data),
        ("quick".data), ("hurry".data), ("expire".data), ("deadline".data)] }
  , { id := ("verification".data), label := ("Verification / KYC".data),
      words := [("verify".data), ("confirm".data), ("kyc".data), ("validation".data),
        ("update your".data), ("authenticate".data)] }
  , { id := ("reward".data), label := ("Reward / Prize".data),
      words := [("reward".data), ("prize".data), ("congratulations".data), ("gift".data),
        ("winner".data), ("bonus".data), ("cashback".data)] }
  , { id := ("threat".data), label := ("Account Threat".data),
      words := [("blocked".data), ("suspended".data), ("locked".data), ("freeze".data),
        ("terminated".data), ("deactivated".data)] }
  , { id := ("payment".data), label := ("Payment Push".data),
      words := [("upi".data), ("transfer".data), ("pay".data), ("wallet".data),
        ("refund".data), ("paytm".data), ("phonepe".data), ("gpay".data), ("payment".data)] }
  , { id := ("identity".data), label := ("Identity Theft".data),
      words := [("otp".data), ("cvv".data), ("pin".data), ("password".data),
        ("aadhaar".data), ("pan".data), ("ssn".data), ("social security".data)] } ]

/-- JS `String.prototype.includes`: substring test. -/
def containsStr (hay needle : List Char) : Bool := decide (needle <:+: hay)

/-- `detectTactics` (App.jsx 123-130): lower-case all messages, join with a
space, keep the tactic definitions one of whose words occurs as a substring. -/
def detectTactics (ms : List ChatMessage) : List TacticDef :=
  let combined := joinWith (' ' :: []) (ms.map (fun m => m.text.map Char.toLower))
  tacticDefs.filter (fun t => t.words.any (fun w => containsStr combined w))

/-- `computeRisk` (App.jsx 132-140). -/
def computeRisk (intel : Intel) (tactics : List TacticDef) : Nat :=
  min 100
    (5 + intel.phishingLinks.length * 25 + intel.upiIds.length * 22 +
      intel.phoneNumbers.length * 12 + intel.bankAccounts.length * 10 +
      tactics.length * 8)

/-- `riskLevel` (App.jsx 148-152). -/
def riskLevel (score : Nat) : List Char :=
  if 70 ≤ score then ("CRITICAL".data)
  else if 40 ≤ score then ("ELEVATED".data)
  else ("LOW".data)

/- ================================================================
   The demo client (unnamed part_007): sendMessage as a pure
   state-transition function.  The fetch is a parameter so that the
   theorems quantify over every possible backend behaviour; `.error`
   is the thrown/caught network failure.
   ================================================================ -/

/-- A message of the demo client (`sender`, `text`). -/
structure DemoMessage where
  sender : List Char
  text : List Char
deriving DecidableEq, Repr

/-- The JSON body sent to `POST /honeypot`; `sessionId := none` models the
key being omitted from the body. -/
structure TurnRequest where
  sessionId : Option (List Char)
  message : DemoMessage
  conversationHistory : List DemoMessage
deriving DecidableEq, Repr

/-- The parsed response body; `none` fields model absent JSON keys. -/
structure TurnResponse where
  sessionId : Option (List Char)
  reply : Option (List Char)
  conversationEnded : Bool
  status : Option (List Char)
deriving DecidableEq, Repr

/-- The component state of the demo client
(`messages`, `input`, `ended`, `sessionId`). -/
structure ClientState where
  messages : List DemoMessage
  input : List Char
  ended : Bool
  sessionId : Option (List Char)
deriving DecidableEq, Repr

/-- Initial `useState` values of the demo client. -/
def initialClientState : ClientState :=
  { messages := [], input := [], ended := false, sessionId := none }

/-- JS string truthiness for an optional string field: absent, null and
the empty string are falsy. -/
def truthyOpt : Option (List Char) → Option (List Char)
  | none => none
  | some s => if s.isEmpty then none else some s

/-- `String.prototype.trim` restricted to the ASCII space characters. -/
def trimStr (l : List Char) : List Char :=
  ((l.dropWhile isSpaceC).reverse.dropWhile isSpaceC).reverse

/-- The `scammerMessage` object built from the composer input. -/
def mkScammerMessage (input : List Char) : DemoMessage :=
  { sender := ("scammer".data), text := input }

/-- The `POST /honeypot` body built by `sendMessage`: the spread
`...(sessionId ? { sessionId } : {})` omits the key unless the stored id
is truthy; `conversationHistory` is always sent empty by this client. -/
def mkTurnRequest (st : ClientState) : TurnRequest :=
  { sessionId := truthyOpt st.sessionId, message := mkScammerMessage st.input,
    conversationHistory := [] }

/-- `sendMessage` of the demo client (part_007, lines 13-59) as one state
transition.  Returns the next state and the request issued, if any:
the guard `if (!input.trim() || ended) return;` issues nothing.
`if (data.sessionId)` captures a truthy response id; `if (data.reply)`
appends a truthy reply; `conversationEnded || status === "ended"` latches
`ended`; a thrown fetch error only logs. -/
def sendMessage (fetchResult : TurnRequest → Except Unit TurnResponse)
    (st : ClientState) : ClientState × Option TurnRequest :=
  if (trimStr st.input).isEmpty || st.ended then (st, none)
  else
    let st1 : ClientState :=
      { st with messages := st.messages ++ [mkScammerMessage st.input], input := [] }
    match fetchResult (mkTurnRequest st) with
    | .error _ => (st1, some (mkTurnRequest st))
    | .ok data =>
      let st2 : ClientState :=
        match truthyOpt data.sessionId with
        | some sid => { st1 with sessionId := some sid }
        | none => st1
      let st3 : ClientState :=
        match truthyOpt data.reply with
        | some r => { st2 with messages := st2.messages ++ [{ sender := ("honeypot".data), text := r }] }
        | none => st2
      let st4 : ClientState :=
        if data.conversationEnded || data.status == some ("ended".data) then
          { st3 with ended := true }
        else st3
      (st4, some (mkTurnRequest st))

/- ================================================================
   maskPII and its three replace passes (unnamed part_005, 73-86).
   `String.prototype.replace(/…/g, rep)` is modelled by the same
   left-to-right scan as match(/g), emitting the replacement instead
   of the consumed characters.
   ================================================================ -/

/-- Replacement scan: a masking matcher returns the consumed characters and
their replacement; unmatched characters are copied. -/
def replaceAux (M : Option Char → List Char → Option (List Char × List Char)) :
    List Char → Nat → Option Char → List Char
  | [], _, _ => []
  | c :: cs, k + 1, _ => replaceAux M cs k (some c)
  | c :: cs, 0, prev =>
    match M prev (c :: cs) with
    | some (v, rep) => rep ++ replaceAux M cs (v.length - 1) (some c)
    | none => c :: replaceAux M cs 0 (some c)

def replaceAll (M : Option Char → List Char → Option (List Char × List Char))
    (s : List Char) : List Char :=
  replaceAux M s 0 none

def bullets (n : Nat) : List Char := List.replicate n '•'

/-- Greedy split of `(\+?\d{2,3})(\d{4,8})(\d{4})` over a digit run of
length `r` starting at the match position: group sizes `(a, b)` with the
JS backtracking preference (`a = 3` first, then maximal `b`). -/
def maskPhoneCore (r : Nat) : Option (Nat × Nat) :=
  if 11 ≤ r then some (3, min 8 (r - 7))
  else if r = 10 then some (2, 4)
  else none

/-- Mask pass 1, regex `(\+?\d{2,3})(\d{4,8})(\d{4})` with replacement
`$1••••••$3`.  When the position holds `+`, the `\+?`-empty reading needs a
digit where the `+` is and always fails, so only the digits after `+` count. -/
def maskPhoneM (_prev : Option Char) (s : List Char) : Option (List Char × List Char) :=
  match s with
  | '+' :: rest =>
    let run := rest.takeWhile isDigitC
    match maskPhoneCore run.length with
    | some (a, b) =>
      some ('+' :: run.take (a + b + 4),
        ('+' :: run.take a) ++ bullets 6 ++ (run.drop (a + b)).take 4)
    | none => none
  | _ =>
    let run := s.takeWhile isDigitC
    match maskPhoneCore run.length with
    | some (a, b) =>
      some (run.take (a + b + 4),
        run.take a ++ bullets 6 ++ (run.drop (a + b)).take 4)
    | none => none

/-- Mask pass 2, regex `([a-zA-Z0-9])([a-zA-Z0-9.]+)(@[a-zA-Z0-9]+)` with
replacement `$1••$3`. -/
def maskUpiM (_prev : Option Char) (s : List Char) : Option (List Char × List Char) :=
  match s with
  | [] => none
  | c :: rest =>
    if c.isAlphanum then
      let mid := rest.takeWhile (fun d => d.isAlphanum || d == '.')
      match rest.dropWhile (fun d => d.isAlphanum || d == '.') with
      | '@' :: r2 =>
        let dom := r2.takeWhile Char.isAlphanum
        if 1 ≤ mid.length ∧ 1 ≤ dom.length then
          some (c :: (mid ++ '@' :: dom), c :: (bullets 2 ++ '@' :: dom))
        else none
      | _ => none
    else none

/-- Mask pass 3, regex `\b(\d{4})\d{8,10}(\d{4})\b` with replacement
`$1••••$2`: a word-bounded maximal digit run of length 16 to 18. -/
def maskAcctM (prev : Option Char) (s : List Char) : Option (List Char × List Char) :=
  let run := s.takeWhile isDigitC
  if prevNonWord prev = true ∧ 16 ≤ run.length ∧ run.length ≤ 18 ∧
      nextNonWord (s.dropWhile isDigitC) = true then
    some (run, run.take 4 ++ bullets 4 ++ run.drop (run.length - 4))
  else none

/-- `maskPII` (part_005, 73-86): identity when `visible` or the text is
empty (falsy), otherwise the three replace passes in order. -/
def maskPII (text : List Char) (visible : Bool) : List Char :=
  if visible || text.isEmpty then text
  else replaceAll maskAcctM (replaceAll maskUpiM (replaceAll maskPhoneM text))

/- ================================================================
   Session store (frontend/src/SessionContext.jsx)
   ================================================================ -/

/-- The intel categories a stored session starts with (SessionContext.jsx 27). -/
structure StoredIntel where
  phoneNumbers : List (List Char)
  upiIds : List (List Char)
  phishingLinks : List (List Char)
  bankAccounts : List (List Char)
  suspiciousKeywords : List (List Char)
deriving DecidableEq, Repr

/-- One session of the analyst console's global store. -/
structure StoredSession where
  id : List Char
  messages : List DemoMessage
  score : Nat
  state : List Char
  intel : StoredIntel
  createdAt : Nat
  lastUpdated : Nat
deriving DecidableEq, Repr

/-- The default fields a session is created with in `addSession`
(SessionContext.jsx 20-34); `now` is `Date.now()`. -/
def newSession (id : List Char) (now : Nat) : StoredSession :=
  { id := id, messages := [], score := 0, state := ("INIT".data),
    intel := { phoneNumbers := [], upiIds := [], phishingLinks := [],
               bankAccounts := [], suspiciousKeywords := [] },
    createdAt := now, lastUpdated := now }

/-- The sessions map held by `SessionProvider`. -/
abbrev SessionStore : Type := List Char → Option StoredSession

/-- `addSession(id)` with the default empty `data` argument: insert the
default session under `id` (the optional `...data` override is not used by
any caller in the sources). -/
def addSession (store : SessionStore) (id : List Char) (now : Nat) : SessionStore :=
  fun k => if k = id then some (newSession id now) else store k

/-- Modelled from the spec: lazy session creation (§3 invariants, §6
session store) — the backend that materialises a session on the first
message for an unknown id is not part of the frontend sources; absence in
the store is treated as a new session built from the same defaults the
console uses. -/
def getOrCreate (store : SessionStore) (id : List Char) (now : Nat) : StoredSession :=
  match store id with
  | some s => s
  | none => newSession id now

/- ================================================================
   Composite scam score (spec §4.1; weights as displayed by
   LiveSessions.jsx 795-801 and part_003 demoScore.signals)
   ================================================================ -/

/-- The five signal weights of the scoring model, in display order:
keyword, urgency, authority, payment, llm intent. -/
def signalWeights : List ℚ :=
  [25 / 100, 20 / 100, 20 / 100, 15 / 100, 20 / 100]

/-- Modelled from the spec: the backend Scorer (§4.1) is absent from the
sources; the composite formula `0.25·keyword + 0.20·urgency +
0.20·authority + 0.15·payment + 0.20·llm_intent` is taken from the spec,
with the weights cross-checked against the frontend displays. -/
def compositeScore (k u a p l : ℚ) : ℚ :=
  (25 / 100) * k + (20 / 100) * u + (20 / 100) * a + (15 / 100) * p + (20 / 100) * l

/- ================================================================
   Properties used by the scanning lemmas
   ================================================================ -/

/-- A pattern splits its input: the consumed part followed by the rest is
the input itself. -/
def PatSplit (p : Pat) : Prop :=
  ∀ s v r, p s = some (v, r) → v ++ r = s

/-- A pattern is blocked by a newline: its behaviour on `xs ++ '\n' :: t`
is determined by its behaviour on `xs` alone. -/
def PatNl (p : Pat) : Prop :=
  ∀ xs t, p (xs ++ '\n' :: t) =
    match p xs with
    | some (v, r) => some (v, r ++ '\n' :: t)
    | none => none

/-- The facts about a matcher that make the `/g`-scan decompose at a
newline: it fails on empty input, never overclaims, is blocked by a
newline, and cannot tell a preceding newline from the start of input. -/
structure MatcherOk (M : Option Char → List Char → Option (List Char)) : Prop where
  empty_none : ∀ prev, M prev [] = none
  len_le : ∀ prev s v, M prev s = some v → v.length ≤ s.length
  nl_block : ∀ prev xs t, M prev (xs ++ '\n' :: t) = M prev xs
  prev_nl : ∀ s, M (some '\n') s = M none s

/-- Whether the character immediately before a block in `a ++ …` gives a
word boundary, when the character before `a` itself (if any) is `prev`:
the last character of `a`, falling back to `prev` when `a` is empty. -/
def boundaryOk : List Char → Option Char → Bool
  | [], prev => prevNonWord prev
  | c :: rest, _ => boundaryOk rest (some c)

/- ================================================================
   Concrete inputs used by witnesses and counterexamples
   ================================================================ -/

def c1Ms : List ChatMessage :=
  [{ role := ("scammer".data),
     text := ("pay ab@ybl or 9876543210 http://x.co 123456789".data), time := 0 }]

def c1M : ChatMessage :=
  { role := ("scammer".data), text := ("send more".data), time := 1 }

def c2Ms : List ChatMessage :=
  [{ role := ("scammer".data), text := ("ab@ybl 9876543210".data), time := 0 }]

def c2M : ChatMessage :=
  { role := ("scammer".data), text := ("ab@ybl".data), time := 1 }

def c3Text : List Char :=
  ("Call +919876543210 about case CC-2026-7782, pay via pay.me@upi or click http://bit.ly/x".data)

def c6Text : List Char := ("1234567890".data)

def c6A : List Char := ("ref ".data)

def c6Ds : List Char := ("123456789".data)

def c6B : List Char := (" end".data)

def c4Resp : TurnResponse :=
  { sessionId := some ("s1".data), reply := some ("hello".data),
    conversationEnded := true, status := some ("success".data) }

def c4Fetch : TurnRequest → Except Unit TurnResponse := fun _ => .ok c4Resp

def c4StateLive : ClientState :=
  { messages := [], input := ("hi".data), ended := false, sessionId := none }

def c4StateEnded : ClientState :=
  { messages := [], input := ("hi".data), ended := true, sessionId := none }

def c7Resp : TurnResponse :=
  { sessionId := some ("hp_1".data), reply := some ("ok".data),
    conversationEnded := false, status := some ("success".data) }

def c7Fetch : TurnRequest → Except Unit TurnResponse := fun _ => .ok c7Resp

def c7State : ClientState :=
  { messages := [], input := ("hello".data), ended := false, sessionId := none }

def c7Req : TurnRequest :=
  { sessionId := none,
    message := { sender := ("scammer".data), text := ("hello".data) },
    conversationHistory := [] }

def c7Next : ClientState :=
  { messages := [{ sender := ("scammer".data), text := ("hello".data) },
                 { sender := ("honeypot".data), text := ("ok".data) }],
    input := [], ended := false, sessionId := some ("hp_1".data) }

def emptyStore : SessionStore := fun _ => none

/- ================================================================
   Lemmas: takeWhile / dropWhile at a blocking character
   ================================================================ -/

theorem takeWhile_append_nl (p : Char → Bool) (hp : p '\n' = false) :
    ∀ (xs t : List Char), (xs ++ '\n' :: t).takeWhile p = xs.takeWhile p := by
  intro xs t
  induction xs with
  | nil => simp [List.takeWhile_cons, hp]
  | cons x xs ih => cases hx : p x <;> simp [List.takeWhile_cons, hx, ih]

theorem dropWhile_append_nl (p : Char → Bool) (hp : p '\n' = false) :
    ∀ (xs t : List Char), (xs ++ '\n' :: t).dropWhile p = xs.dropWhile p ++ '\n' :: t := by
  intro xs t
  induction xs with
  | nil => simp [List.dropWhile_cons, hp]
  | cons x xs ih => cases hx : p x <;> simp [List.dropWhile_cons, hx, ih]

theorem takeWhile_append_all (p : Char → Bool) {l : List Char} (r : List Char)
    (h : l.all p = true) : (l ++ r).takeWhile p = l ++ r.takeWhile p := by
  induction l with
  | nil => simp
  | cons x xs ih =>
    simp only [List.all_cons, Bool.and_eq_true] at h
    simp [List.takeWhile_cons, h.1, ih h.2]

theorem dropWhile_append_all (p : Char → Bool) {l : List Char} (r : List Char)
    (h : l.all p = true) : (l ++ r).dropWhile p = r.dropWhile p := by
  induction l with
  | nil => simp
  | cons x xs ih =>
    simp only [List.all_cons, Bool.and_eq_true] at h
    simp [List.dropWhile_cons, h.1, ih h.2]

/- ================================================================
   Lemmas: the pattern combinators
   ================================================================ -/

theorem patSplit_pEps : PatSplit pEps := by
  intro s v r h
  simp only [pEps, Option.some.injEq, Prod.mk.injEq] at h
  simp [← h.1, ← h.2]

theorem patSplit_pCharP (p : Char → Bool) : PatSplit (pCharP p) := by
  intro s v r h
  cases s with
  | nil => simp [pCharP] at h
  | cons c cs =>
    by_cases hc : p c = true
    · simp only [pCharP, hc, if_true, Option.some.injEq, Prod.mk.injEq] at h
      simp [← h.1, ← h.2]
    · simp [pCharP, hc] at h

theorem patSplit_pThen {f g : Pat} (hf : PatSplit f) (hg : PatSplit g) :
    PatSplit (pThen f g) := by
  intro s v r h
  unfold pThen at h
  cases hfs : f s with
  | none => rw [hfs] at h; exact absurd h (by simp)
  | some vr =>
    obtain ⟨v1, r1⟩ := vr
    rw [hfs] at h
    dsimp only at h
    cases hgs : g r1 with
    | none => rw [hgs] at h; exact absurd h (by simp)
    | some wr =>
      obtain ⟨w1, r2⟩ := wr
      rw [hgs] at h
      simp only [Option.some.injEq, Prod.mk.injEq] at h
      rw [← h.1, ← h.2, List.append_assoc, hg r1 w1 r2 hgs, hf s v1 r1 hfs]

theorem patSplit_pAlt {f g : Pat} (hf : PatSplit f) (hg : PatSplit g) :
    PatSplit (pAlt f g) := by
  intro s v r h
  unfold pAlt at h
  cases hfs : f s with
  | none => rw [hfs] at h; exact hg s v r h
  | some vr => rw [hfs] at h; exact hf s v r (hfs.trans h)

theorem patSplit_pStr : ∀ l : List Char, PatSplit (pStr l) := by
  intro l
  induction l with
  | nil => exact patSplit_pEps
  | cons c cs ih => exact patSplit_pThen (patSplit_pCharP _) ih

theorem patSplit_pCount (p : Char → Bool) : ∀ n, PatSplit (pCount n p) := by
  intro n
  induction n with
  | zero => exact patSplit_pEps
  | succ n ih => exact patSplit_pThen (patSplit_pCharP _) ih

theorem patSplit_pTakeWhileMin (n : Nat) (p : Char → Bool) :
    PatSplit (pTakeWhileMin n p) := by
  intro s v r h
  unfold pTakeWhileMin at h
  by_cases hn : n ≤ (s.takeWhile p).length
  · simp only [hn, if_true, Option.some.injEq, Prod.mk.injEq] at h
    rw [← h.1, ← h.2]
    exact List.takeWhile_append_dropWhile p s
  · simp [hn] at h

theorem patNl_pEps : PatNl pEps := by
  intro xs t
  simp [pEps]

theorem patNl_pCharP (p : Char → Bool) (hp : p '\n' = false) : PatNl (pCharP p) := by
  intro xs t
  cases xs with
  | nil => simp [pCharP, hp]
  | cons c cs => cases hc : p c <;> simp [pCharP, hc]

theorem patNl_pChar (c : Char) (hc : c ≠ '\n') : PatNl (pChar c) := by
  apply patNl_pCharP
  simp only [beq_eq_false_iff_ne, ne_eq]
  exact fun h => hc h.symm

theorem patNl_pThen {f g : Pat} (hf : PatNl f) (hg : PatNl g) : PatNl (pThen f g) := by
  intro xs t
  unfold pThen
  rw [hf xs t]
  cases hfs : f xs with
  | none => simp
  | some vr =>
    obtain ⟨v1, r1⟩ := vr
    simp only
    rw [hg r1 t]
    cases hgs : g r1 with
    | none => simp
    | some wr => obtain ⟨w1, r2⟩ := wr; simp

theorem patNl_pAlt {f g : Pat} (hf : PatNl f) (hg : PatNl g) : PatNl (pAlt f g) := by
  intro xs t
  unfold pAlt
  rw [hf xs t]
  cases hfs : f xs with
  | none => simp only; rw [hg xs t]
  | some vr => simp

theorem patNl_pStr : ∀ l : List Char, '\n' ∉ l → PatNl (pStr l) := by
  intro l
  induction l with
  | nil => intro _; exact patNl_pEps
  | cons c cs ih =>
    intro h
    simp only [List.mem_cons, not_or] at h
    exact patNl_pThen (patNl_pChar c (fun hc => h.1 hc.symm)) (ih h.2)

theorem patNl_pCount (p : Char → Bool) (hp : p '\n' = false) :
    ∀ n, PatNl (pCount n p) := by
  intro n
  induction n with
  | zero => exact patNl_pEps
  | succ n ih => exact patNl_pThen (patNl_pCharP p hp) ih

theorem patNl_pTakeWhileMin (n : Nat) (p : Char → Bool) (hp : p '\n' = false) :
    PatNl (pTakeWhileMin n p) := by
  intro xs t
  unfold pTakeWhileMin
  rw [takeWhile_append_nl p hp, dropWhile_append_nl p hp]
  by_cases hn : n ≤ (xs.takeWhile p).length <;> simp [hn]

/- ================================================================
   Lemmas: the four extraction matchers satisfy MatcherOk
   ================================================================ -/

theorem mapFst_nl {p : Pat} (hn : PatNl p) (xs t : List Char) :
    (p (xs ++ '\n' :: t)).map Prod.fst = (p xs).map Prod.fst := by
  rw [hn]
  cases h : p xs with
  | none => simp
  | some vr => obtain ⟨v, r⟩ := vr; simp

theorem mapFst_len {p : Pat} (hs : PatSplit p) (s : List Char) (v : List Char)
    (h : (p s).map Prod.fst = some v) : v.length ≤ s.length := by
  obtain ⟨⟨v', r⟩, hv, hfst⟩ := Option.map_eq_some'.mp h
  dsimp only at hfst
  subst hfst
  have hsplit := hs s v' r hv
  have := congrArg List.length hsplit
  simp only [List.length_append] at this
  omega

theorem patSplit_upiPat : PatSplit upiPat :=
  patSplit_pThen (patSplit_pTakeWhileMin _ _)
    (patSplit_pThen (patSplit_pCharP _) (patSplit_pTakeWhileMin _ _))

theorem patNl_upiPat : PatNl upiPat :=
  patNl_pThen (patNl_pTakeWhileMin 2 isUpiChar (by decide))
    (patNl_pThen (patNl_pChar '@' (by decide))
      (patNl_pTakeWhileMin 2 (fun c => c.isAlpha) (by decide)))

theorem matcherOk_upi : MatcherOk matchUpi := by
  constructor
  · intro prev; rfl
  · intro prev s v h; exact mapFst_len patSplit_upiPat s v h
  · intro prev xs t; exact mapFst_nl patNl_upiPat xs t
  · intro s; rfl

theorem patSplit_phonePat : PatSplit phonePat :=
  patSplit_pAlt (patSplit_pThen (patSplit_pStr _) (patSplit_pCount _ _))
    (patSplit_pAlt (patSplit_pThen (patSplit_pStr _) (patSplit_pCount _ _))
      (patSplit_pThen (patSplit_pCharP _) (patSplit_pTakeWhileMin _ _)))

theorem patNl_phonePat : PatNl phonePat :=
  patNl_pAlt (patNl_pThen (patNl_pStr _ (by decide)) (patNl_pCount isDigitC (by decide) _))
    (patNl_pAlt (patNl_pThen (patNl_pStr _ (by decide)) (patNl_pCount isDigitC (by decide) _))
      (patNl_pThen (patNl_pChar '+' (by decide)) (patNl_pTakeWhileMin 10 isDigitC (by decide))))

theorem phoneTen_empty (prev : Option Char) : phoneTen prev [] = none := by
  simp [phoneTen]

theorem phoneTen_nl (prev : Option Char) (xs t : List Char) :
    phoneTen prev (xs ++ '\n' :: t) = phoneTen prev xs := by
  unfold phoneTen
  rw [takeWhile_append_nl isDigitC (by decide)]

theorem phoneTen_prev_nl (s : List Char) :
    phoneTen (some '\n') s = phoneTen none s := by
  unfold phoneTen
  rw [show prevNotDigit (some '\n') = prevNotDigit none from by decide]

theorem phoneTen_len (prev : Option Char) (s v : List Char)
    (h : phoneTen prev s = some v) : v.length ≤ s.length := by
  unfold phoneTen at h
  split_ifs at h
  cases h
  exact (List.takeWhile_prefix _).length_le

theorem matcherOk_phone : MatcherOk matchPhone := by
  have hempty : (phonePat []).map Prod.fst = none := rfl
  constructor
  · intro prev
    unfold matchPhone
    rw [hempty, phoneTen_empty]
  · intro prev s v h
    unfold matchPhone at h
    cases hp : (phonePat s).map Prod.fst with
    | some w =>
      rw [hp] at h
      cases h
      exact mapFst_len patSplit_phonePat s v hp
    | none =>
      rw [hp] at h
      exact phoneTen_len prev s v h
  · intro prev xs t
    unfold matchPhone
    rw [mapFst_nl patNl_phonePat, phoneTen_nl]
  · intro s
    unfold matchPhone
    rw [phoneTen_prev_nl]

theorem patSplit_linkPat : PatSplit linkPat :=
  patSplit_pAlt (patSplit_pThen (patSplit_pStr _) (patSplit_pTakeWhileMin _ _))
    (patSplit_pThen (patSplit_pStr _) (patSplit_pTakeWhileMin _ _))

theorem patNl_linkPat : PatNl linkPat :=
  patNl_pAlt
    (patNl_pThen (patNl_pStr _ (by decide))
      (patNl_pTakeWhileMin 1 (fun c => !isSpaceC c) (by decide)))
    (patNl_pThen (patNl_pStr _ (by decide))
      (patNl_pTakeWhileMin 1 (fun c => !isSpaceC c) (by decide)))

theorem matcherOk_link : MatcherOk matchLink := by
  constructor
  · intro prev; rfl
  · intro prev s v h; exact mapFst_len patSplit_linkPat s v h
  · intro prev xs t; exact mapFst_nl patNl_linkPat xs t
  · intro s; rfl

theorem nextNonWord_append_nl (l t : List Char) :
    nextNonWord (l ++ '\n' :: t) = nextNonWord l := by
  cases l with
  | nil => rfl
  | cons c cs => rfl

theorem matcherOk_account : MatcherOk matchAccount := by
  constructor
  · intro prev; simp [matchAccount]
  · intro prev s v h
    unfold matchAccount at h
    split_ifs at h
    cases h
    exact (List.takeWhile_prefix _).length_le
  · intro prev xs t
    unfold matchAccount
    rw [takeWhile_append_nl isDigitC (by decide), dropWhile_append_nl isDigitC (by decide),
      nextNonWord_append_nl]
  · intro s
    unfold matchAccount
    rw [show prevNonWord (some '\n') = prevNonWord none from by decide]

/- ================================================================
   Lemmas: the /g-scan splits at a newline
   ================================================================ -/

theorem scanAux_append {M : Option Char → List Char → Option (List Char)}
    (hM : MatcherOk M) (t : List Char) :
    ∀ (xs : List Char) (k : Nat) (prev : Option Char), k ≤ xs.length →
      scanAux M (xs ++ '\n' :: t) k prev =
        scanAux M xs k prev ++ scanAux M t 0 (some '\n') := by
  intro xs
  induction xs with
  | nil =>
    intro k prev hk
    have hk0 : k = 0 := Nat.le_zero.mp hk
    subst hk0
    simp only [List.nil_append, scanAux, List.append_eq]
    rw [show M prev ('\n' :: t) = M prev [] from hM.nl_block prev [] t, hM.empty_none]
  | cons c xs ih =>
    intro k prev hk
    cases k with
    | succ k' =>
      simp only [List.cons_append, scanAux, List.append_eq]
      exact ih k' (some c) (Nat.le_of_succ_le_succ hk)
    | zero =>
      simp only [List.cons_append, scanAux, List.append_eq]
      rw [show M prev (c :: (xs ++ '\n' :: t)) = M prev (c :: xs) from
        hM.nl_block prev (c :: xs) t]
      cases hv : M prev (c :: xs) with
      | none =>
        simp only
        exact ih 0 (some c) (Nat.zero_le _)
      | some v =>
        simp only [List.cons_append]
        have hlen : v.length - 1 ≤ xs.length := by
          have := hM.len_le prev (c :: xs) v hv
          simp only [List.length_cons] at this
          omega
        rw [ih (v.length - 1) (some c) hlen]

theorem scanAux_prev_irrel {M : Option Char → List Char → Option (List Char)}
    (hM : MatcherOk M) (t : List Char) :
    scanAux M t 0 (some '\n') = scanAux M t 0 none := by
  cases t with
  | nil => rfl
  | cons c cs =>
    simp only [scanAux]
    rw [hM.prev_nl]

theorem scanText_append {M : Option Char → List Char → Option (List Char)}
    (hM : MatcherOk M) (s t : List Char) :
    scanText M (s ++ '\n' :: t) = scanText M s ++ scanText M t := by
  unfold scanText
  rw [scanAux_append hM t s 0 none (Nat.zero_le _), scanAux_prev_irrel hM]

/- ================================================================
   Lemmas: join, uniqueList
   ================================================================ -/

theorem joinWith_snoc (sep : List Char) :
    ∀ (l : List (List Char)) (x : List Char), l ≠ [] →
      joinWith sep (l ++ [x]) = joinWith sep l ++ sep ++ x := by
  intro l
  induction l with
  | nil => intro x h; exact absurd rfl h
  | cons y l ih =>
    intro x _
    cases l with
    | nil => simp [joinWith]
    | cons z l' =>
      have h2 : joinWith sep ((y :: z :: l') ++ [x]) =
          y ++ sep ++ joinWith sep ((z :: l') ++ [x]) := rfl
      rw [h2, ih x (List.cons_ne_nil z l')]
      simp [joinWith, List.append_assoc]

theorem joinTexts_snoc (ms : List ChatMessage) (m : ChatMessage) (h : ms ≠ []) :
    joinTexts (ms ++ [m]) = joinTexts ms ++ '\n' :: m.text := by
  unfold joinTexts
  rw [List.map_append]
  have hne : ms.map ChatMessage.text ≠ [] := by
    intro hc
    apply h
    simpa using hc
  rw [show List.map ChatMessage.text [m] = [m.text] from rfl,
    joinWith_snoc ('\n' :: []) (ms.map ChatMessage.text) m.text hne]
  simp [List.append_assoc]

theorem mem_uniqueAux {α : Type} [DecidableEq α] :
    ∀ (l seen : List α) (a : α), a ∈ uniqueAux seen l ↔ (a ∈ l ∧ a ∉ seen) := by
  intro l
  induction l with
  | nil => intro seen a; simp [uniqueAux]
  | cons x xs ih =>
    intro seen a
    by_cases hx : x ∈ seen
    · rw [uniqueAux, if_pos hx, ih]
      simp only [List.mem_cons]
      constructor
      · rintro ⟨h1, h2⟩; exact ⟨Or.inr h1, h2⟩
      · rintro ⟨h1 | h1, h2⟩
        · exact absurd (h1 ▸ hx) h2
        · exact ⟨h1, h2⟩
    · rw [uniqueAux, if_neg hx]
      simp only [List.mem_cons, ih, List.mem_cons]
      constructor
      · rintro (h | ⟨h1, h2⟩)
        · exact ⟨Or.inl h, h ▸ hx⟩
        · exact ⟨Or.inr h1, fun hs => h2 (Or.inr hs)⟩
      · rintro ⟨h1 | h1, h2⟩
        · exact Or.inl h1
        · by_cases hax : a = x
          · exact Or.inl hax
          · exact Or.inr ⟨h1, fun hs => (hs.elim hax h2 : False)⟩

theorem mem_uniqueList {α : Type} [DecidableEq α] (l : List α) (a : α) :
    a ∈ uniqueList l ↔ a ∈ l := by
  rw [uniqueList, mem_uniqueAux]
  simp

theorem uniqueAux_eq_nil {α : Type} [DecidableEq α] :
    ∀ (B seen : List α), (∀ b ∈ B, b ∈ seen) → uniqueAux seen B = [] := by
  intro B
  induction B with
  | nil => intro seen _; rfl
  | cons x xs ih =>
    intro seen h
    rw [uniqueAux, if_pos (h x (List.mem_cons_self x xs))]
    exact ih seen (fun b hb => h b (List.mem_cons_of_mem x hb))

theorem uniqueAux_append {α : Type} [DecidableEq α] :
    ∀ (A B seen : List α), (∀ b ∈ B, b ∈ A ∨ b ∈ seen) →
      uniqueAux seen (A ++ B) = uniqueAux seen A := by
  intro A
  induction A with
  | nil =>
    intro B seen h
    simp only [List.nil_append]
    rw [show uniqueAux seen ([] : List α) = [] from rfl]
    exact uniqueAux_eq_nil B seen (fun b hb => (h b hb).elim (fun hc => absurd hc (by simp)) id)
  | cons x A ih =>
    intro B seen h
    by_cases hx : x ∈ seen
    · rw [List.cons_append, uniqueAux, if_pos hx, uniqueAux, if_pos hx]
      refine ih B seen (fun b hb => ?_)
      rcases h b hb with h1 | h2
      · rcases List.mem_cons.mp h1 with h3 | h4
        · exact Or.inr (h3 ▸ hx)
        · exact Or.inl h4
      · exact Or.inr h2
    · rw [List.cons_append, uniqueAux, if_neg hx, uniqueAux, if_neg hx]
      refine congrArg (x :: ·) (ih B (x :: seen) (fun b hb => ?_))
      rcases h b hb with h1 | h2
      · rcases List.mem_cons.mp h1 with h3 | h4
        · exact Or.inr (h3 ▸ List.mem_cons_self x seen)
        · exact Or.inl h4
      · exact Or.inr (List.mem_cons_of_mem x h2)

theorem uniqueList_append_subset {α : Type} [DecidableEq α] {A B : List α}
    (h : ∀ b ∈ B, b ∈ A) : uniqueList (A ++ B) = uniqueList A :=
  uniqueAux_append A B [] (fun b hb => Or.inl (h b hb))

/-- Empty sessions derive the empty bundle. -/
theorem deriveIntel_nil : deriveIntel [] = ⟨[], [], [], []⟩ := rfl

/- ================================================================
   Claim theorems
   ================================================================ -/

/-- C1: for every sequence of messages, each category of the derived
IntelBundle is non-decreasing turn-over-turn — the bundle derived after
appending one more message contains every value of the bundle derived
before it; values are only added, never removed. -/
theorem intel_monotone (ms : List ChatMessage) (m : ChatMessage) :
    (∀ v, v ∈ (deriveIntel ms).upiIds → v ∈ (deriveIntel (ms ++ [m])).upiIds) ∧
    (∀ v, v ∈ (deriveIntel ms).phoneNumbers → v ∈ (deriveIntel (ms ++ [m])).phoneNumbers) ∧
    (∀ v, v ∈ (deriveIntel ms).phishingLinks → v ∈ (deriveIntel (ms ++ [m])).phishingLinks) ∧
    (∀ v, v ∈ (deriveIntel ms).bankAccounts → v ∈ (deriveIntel (ms ++ [m])).bankAccounts) := by
  by_cases hms : ms = []
  · subst hms
    rw [deriveIntel_nil]
    refine ⟨?_, ?_, ?_, ?_⟩ <;> intro v hv <;> simp at hv
  · have hj := joinTexts_snoc ms m hms
    refine ⟨?_, ?_, ?_, ?_⟩ <;> intro v hv <;>
      simp only [deriveIntel, extractEntitiesFromText] at hv ⊢ <;>
      rw [hj] <;> rw [mem_uniqueList] at hv ⊢
    · rw [scanText_append matcherOk_upi]
      exact List.mem_append_left _ hv
    · rw [scanText_append matcherOk_phone]
      exact List.mem_append_left _ hv
    · rw [scanText_append matcherOk_link, List.map_append]
      exact List.mem_append_left _ hv
    · rw [scanText_append matcherOk_account, List.filter_append]
      exact List.mem_append_left _ hv

/-- Witness for C1: a concrete session holding one value of every
category, extended by one more message. -/
theorem intel_monotone_witness :
    (("ab@ybl".data) ∈ (deriveIntel c1Ms).upiIds ∧
      ("ab@ybl".data) ∈ (deriveIntel (c1Ms ++ [c1M])).upiIds) ∧
    (("9876543210".data) ∈ (deriveIntel c1Ms).phoneNumbers ∧
      ("9876543210".data) ∈ (deriveIntel (c1Ms ++ [c1M])).phoneNumbers) ∧
    (("http://x.co".data) ∈ (deriveIntel c1Ms).phishingLinks ∧
      ("http://x.co".data) ∈ (deriveIntel (c1Ms ++ [c1M])).phishingLinks) ∧
    (("123456789".data) ∈ (deriveIntel c1Ms).bankAccounts ∧
      ("123456789".data) ∈ (deriveIntel (c1Ms ++ [c1M])).bankAccounts) :=
  ⟨⟨by decide, (intel_monotone c1Ms c1M).1 _ (by decide)⟩,
   ⟨by decide, (intel_monotone c1Ms c1M).2.1 _ (by decide)⟩,
   ⟨by decide, (intel_monotone c1Ms c1M).2.2.1 _ (by decide)⟩,
   ⟨by decide, (intel_monotone c1Ms c1M).2.2.2 _ (by decide)⟩⟩

/-- C2: appending a message all of whose extracted artifacts are already
present in the derived bundle leaves the bundle unchanged in every
category — the merge is idempotent and deduplicating. -/
theorem intel_idempotent_merge (ms : List ChatMessage) (m : ChatMessage)
    (hu : ∀ v ∈ (extractEntitiesFromText m.text).upiIds, v ∈ (deriveIntel ms).upiIds)
    (hp : ∀ v ∈ (extractEntitiesFromText m.text).phoneNumbers,
      v ∈ (deriveIntel ms).phoneNumbers)
    (hl : ∀ v ∈ (extractEntitiesFromText m.text).phishingLinks,
      v ∈ (deriveIntel ms).phishingLinks)
    (hb : ∀ v ∈ (extractEntitiesFromText m.text).bankAccounts,
      v ∈ (deriveIntel ms).bankAccounts) :
    deriveIntel (ms ++ [m]) = deriveIntel ms := by
  by_cases hms : ms = []
  · subst hms
    rw [deriveIntel_nil] at hu hp hl hb ⊢
    simp only [List.nil_append]
    have hmm : deriveIntel [m] = extractEntitiesFromText m.text := rfl
    rw [hmm]
    ext1
    · exact List.eq_nil_iff_forall_not_mem.mpr
        (fun a ha => List.not_mem_nil a (hu a ha))
    · exact List.eq_nil_iff_forall_not_mem.mpr
        (fun a ha => List.not_mem_nil a (hp a ha))
    · exact List.eq_nil_iff_forall_not_mem.mpr
        (fun a ha => List.not_mem_nil a (hl a ha))
    · exact List.eq_nil_iff_forall_not_mem.mpr
        (fun a ha => List.not_mem_nil a (hb a ha))
  · have hj := joinTexts_snoc ms m hms
    simp only [deriveIntel, extractEntitiesFromText] at hu hp hl hb ⊢
    rw [hj]
    ext1
    · rw [scanText_append matcherOk_upi]
      exact uniqueList_append_subset
        (fun b hb2 => (mem_uniqueList _ _).mp (hu b ((mem_uniqueList _ _).mpr hb2)))
    · rw [scanText_append matcherOk_phone]
      exact uniqueList_append_subset
        (fun b hb2 => (mem_uniqueList _ _).mp (hp b ((mem_uniqueList _ _).mpr hb2)))
    · rw [scanText_append matcherOk_link, List.map_append]
      exact uniqueList_append_subset
        (fun b hb2 => (mem_uniqueList _ _).mp (hl b ((mem_uniqueList _ _).mpr hb2)))
    · rw [scanText_append matcherOk_account, List.filter_append]
      exact uniqueList_append_subset
        (fun b hb2 => (mem_uniqueList _ _).mp (hb b ((mem_uniqueList _ _).mpr hb2)))

/-- Witness for C2: re-sending an already-extracted payment handle leaves
the whole bundle unchanged. -/
theorem intel_idempotent_merge_witness :
    deriveIntel (c2Ms ++ [c2M]) = deriveIntel c2Ms :=
  intel_idempotent_merge c2Ms c2M (by decide) (by decide) (by decide) (by decide)

/-- C3 counterexample: on the scenario message the extractor yields a
bank-account value besides the phone, handle and URL (the phone digits
match `\b\d{8,16}\b` and survive the length-10 filter), and the extractor
has no case-id category at all, so the yield is not exactly one phone, one
payment handle, one URL and one case id. -/
theorem scenario_extraction_counterexample :
    (extractEntitiesFromText c3Text).bankAccounts = [("919876543210".data)] ∧
    (extractEntitiesFromText c3Text).bankAccounts ≠ [] := by
  refine ⟨by decide, ?_⟩
  intro h
  rw [show (extractEntitiesFromText c3Text).bankAccounts = [("919876543210".data)]
    from by decide] at h
  cases h

/-- C3 amended: on the scenario message the extractor yields exactly one
phone number, one payment handle and one URL, plus one bank-account value
holding the phone's digit run; it has no case-id category. -/
theorem scenario_extraction_exact :
    extractEntitiesFromText c3Text =
      { upiIds := [("pay.me@upi".data)],
        phoneNumbers := [("+919876543210".data)],
        phishingLinks := [("http://bit.ly/x".data)],
        bankAccounts := [("919876543210".data)] } := by
  decide

/- ================================================================
   C6: which digit runs become bank accounts
   ================================================================ -/

theorem isDigit_isWord (c : Char) (h : isDigitC c = true) : isWordC c = true := by
  unfold isDigitC at h
  simp [isWordC, Char.isAlphanum, h]

theorem takeWhile_nil_of_nextNonWord (b : List Char) (h : nextNonWord b = true) :
    b.takeWhile isDigitC = [] := by
  cases b with
  | nil => rfl
  | cons c cs =>
    have hw : isWordC c = false := by
      have : (!isWordC c) = true := h
      simpa using this
    have hd : isDigitC c = false := by
      cases hdc : isDigitC c
      · rfl
      · rw [isDigit_isWord c hdc] at hw; cases hw
    simp [List.takeWhile_cons, hd]

theorem dropWhile_self_of_nextNonWord (b : List Char) (h : nextNonWord b = true) :
    b.dropWhile isDigitC = b := by
  cases b with
  | nil => rfl
  | cons c cs =>
    have hw : isWordC c = false := by
      have : (!isWordC c) = true := h
      simpa using this
    have hd : isDigitC c = false := by
      cases hdc : isDigitC c
      · rfl
      · rw [isDigit_isWord c hdc] at hw; cases hw
    simp [List.dropWhile_cons, hd]

theorem allDigits_boundary_false :
    ∀ (a : List Char) (prev : Option Char), a ≠ [] → a.all isDigitC = true →
      boundaryOk a prev = false := by
  intro a
  induction a with
  | nil => intro prev h; exact absurd rfl h
  | cons c rest ih =>
    intro prev _ hall
    simp only [List.all_cons, Bool.and_eq_true] at hall
    cases rest with
    | nil =>
      show prevNonWord (some c) = false
      show (!isWordC c) = false
      rw [isDigit_isWord c hall.1]
      rfl
    | cons y rest' =>
      show boundaryOk (y :: rest') (some c) = false
      exact ih (some c) (List.cons_ne_nil _ _) hall.2

/-- The `/g`-scan of the bank-account matcher reaches every word-bounded
maximal digit run of length 8 to 16 and emits it, whatever precedes it. -/
theorem scanAcct_reach :
    ∀ (a : List Char) (k : Nat) (prev : Option Char) (ds b : List Char),
      ds.all isDigitC = true → 8 ≤ ds.length → ds.length ≤ 16 →
      nextNonWord b = true → k ≤ a.length → boundaryOk a prev = true →
      ds ∈ scanAux matchAccount (a ++ (ds ++ b)) k prev := by
  intro a
  induction a with
  | nil =>
    intro k prev ds b hall h8 h16 hb hk hpre
    have hk0 : k = 0 := Nat.le_zero.mp hk
    subst hk0
    cases ds with
    | nil => simp at h8
    | cons d ds' =>
      have hmatch : matchAccount prev ((d :: ds') ++ b) = some (d :: ds') := by
        unfold matchAccount
        rw [takeWhile_append_all isDigitC b hall, takeWhile_nil_of_nextNonWord b hb,
          List.append_nil, dropWhile_append_all isDigitC b hall,
          dropWhile_self_of_nextNonWord b hb]
        exact if_pos ⟨hpre, h8, h16, hb⟩
      simp only [List.nil_append, List.cons_append, scanAux, List.append_eq]
      rw [show matchAccount prev (d :: (ds' ++ b)) = some (d :: ds') from hmatch]
      exact List.mem_cons_self _ _
  | cons x a' ih =>
    intro k prev ds b hall h8 h16 hb hk hpre
    cases k with
    | succ k' =>
      simp only [List.cons_append, scanAux, List.append_eq]
      exact ih k' (some x) ds b hall h8 h16 hb (Nat.le_of_succ_le_succ hk) hpre
    | zero =>
      simp only [List.cons_append, scanAux, List.append_eq]
      cases hv : matchAccount prev (x :: (a' ++ (ds ++ b))) with
      | none =>
        simp only
        exact ih 0 (some x) ds b hall h8 h16 hb (Nat.zero_le _) hpre
      | some v =>
        apply List.mem_cons_of_mem
        have hv' := hv
        unfold matchAccount at hv'
        split_ifs at hv' with hcond
        · injection hv' with hveq
          have hvall : v.all isDigitC = true := by
            rw [← hveq]
            exact List.all_eq_true.mpr (fun y hy => List.mem_takeWhile_imp hy)
          have hvpre : v <+: x :: (a' ++ (ds ++ b)) := by
            rw [← hveq]
            exact List.takeWhile_prefix _
          have hbound : v.length ≤ a'.length := by
            by_contra hgt
            push_neg at hgt
            have hxa : (x :: a') <+: v := by
              refine List.prefix_of_prefix_length_le ⟨ds ++ b, by simp⟩ hvpre ?_
              simp only [List.length_cons]
              omega
            have hallxa : (x :: a').all isDigitC = true :=
              List.all_eq_true.mpr
                (fun y hy => List.all_eq_true.mp hvall y (hxa.subset hy))
            have hfalse := allDigits_boundary_false (x :: a') prev
              (List.cons_ne_nil _ _) hallxa
            rw [hfalse] at hpre
            exact Bool.noConfusion hpre
          exact ih (v.length - 1) (some x) ds b hall h8 h16 hb
            (by omega) hpre

/-- C6 counterexample: `1234567890` is a word-bounded run of 10 consecutive
digits — inside the claimed 9-to-18 range — yet extraction yields no bank
account from it: the run matches `\b\d{8,16}\b` but is removed by the
`a.length !== 10` filter (it is phone-shaped). -/
theorem bank_account_ten_digit_counterexample :
    (extractEntitiesFromText c6Text).bankAccounts = [] ∧
    ("1234567890".data) ∉ (extractEntitiesFromText c6Text).bankAccounts := by
  refine ⟨by decide, ?_⟩
  intro h
  rw [show (extractEntitiesFromText c6Text).bankAccounts = [] from by decide] at h
  cases h

/-- C6 amended: for every input text, every word-bounded maximal run of 8
to 16 consecutive digits whose length is not exactly 10 is extracted as a
bank account by the direct pattern pass (length-10 runs are filtered out
as phone-shaped, and runs of 17 or more digits never match). -/
theorem bank_account_word_bounded_runs (a ds b : List Char)
    (hall : ds.all isDigitC = true) (h8 : 8 ≤ ds.length) (h16 : ds.length ≤ 16)
    (h10 : ds.length ≠ 10)
    (hpre : boundaryOk a none = true) (hpost : nextNonWord b = true) :
    ds ∈ (extractEntitiesFromText (a ++ (ds ++ b))).bankAccounts := by
  have hscan : ds ∈ scanText matchAccount (a ++ (ds ++ b)) :=
    scanAcct_reach a 0 none ds b hall h8 h16 hpost (Nat.zero_le _) hpre
  simp only [extractEntitiesFromText]
  rw [mem_uniqueList]
  exact List.mem_filter.mpr ⟨hscan, by simpa using h10⟩

/-- Witness for C6 at a concrete 9-digit run flanked by word boundaries. -/
theorem bank_account_word_bounded_runs_witness :
    c6Ds.all isDigitC = true ∧ boundaryOk c6A none = true ∧
      nextNonWord c6B = true ∧
      c6Ds ∈ (extractEntitiesFromText (c6A ++ (c6Ds ++ c6B))).bankAccounts :=
  ⟨by decide, by decide, by decide,
    bank_account_word_bounded_runs c6A c6Ds c6B (by decide) (by decide)
      (by decide) (by decide) (by decide) (by decide)⟩

/-- C4: once a response marks the conversation ended (`conversationEnded`
true or status `"ended"`), the client latches `ended`; and whenever
`ended` is set, `sendMessage` returns at once without issuing a request
and without changing any state. -/
theorem ended_short_circuit :
    (∀ (f : TurnRequest → Except Unit TurnResponse) (st : ClientState),
      st.ended = true → sendMessage f st = (st, none)) ∧
    (∀ (f : TurnRequest → Except Unit TurnResponse) (st : ClientState)
      (data : TurnResponse),
      (trimStr st.input).isEmpty = false → st.ended = false →
      f (mkTurnRequest st) = .ok data →
      (data.conversationEnded = true ∨ data.status = some ("ended".data)) →
      ((sendMessage f st).1).ended = true) := by
  constructor
  · intro f st h
    unfold sendMessage
    rw [h]
    simp
  · intro f st data hin hend hreq hmark
    unfold sendMessage
    rw [hin, hend]
    simp only [Bool.or_self, Bool.false_eq_true, if_false]
    rw [hreq]
    have hcond : (data.conversationEnded || data.status == some ("ended".data)) = true := by
      rcases hmark with h | h
      · simp [h]
      · simp [h]
    rcases h1 : truthyOpt data.sessionId with _ | sid <;>
      rcases h2 : truthyOpt data.reply with _ | rep <;>
        simp [h1, h2, hcond]

/-- Witness for C4: a live state whose turn response marks the
conversation ended latches `ended`, and the latched state short-circuits. -/
theorem ended_short_circuit_witness :
    c4StateEnded.ended = true ∧
    sendMessage c4Fetch c4StateEnded = (c4StateEnded, none) ∧
    ((sendMessage c4Fetch c4StateLive).1).ended = true :=
  ⟨rfl, ended_short_circuit.1 c4Fetch c4StateEnded rfl,
    ended_short_circuit.2 c4Fetch c4StateLive c4Resp (by decide) rfl rfl
      (Or.inl rfl)⟩

/-- C5: the five signal weights sum to exactly 1, and the composite scam
score lies in [0,1] whenever each individual signal score lies in [0,1]. -/
theorem composite_weights_bounds :
    signalWeights.sum = 1 ∧
    (∀ k u a p l : ℚ, 0 ≤ k → k ≤ 1 → 0 ≤ u → u ≤ 1 → 0 ≤ a → a ≤ 1 →
      0 ≤ p → p ≤ 1 → 0 ≤ l → l ≤ 1 →
      0 ≤ compositeScore k u a p l ∧ compositeScore k u a p l ≤ 1) := by
  constructor
  · norm_num [signalWeights]
  · intro k u a p l hk0 hk1 hu0 hu1 ha0 ha1 hp0 hp1 hl0 hl1
    unfold compositeScore
    constructor <;> nlinarith

/-- Witness for C5 at concrete signal values. -/
theorem composite_weights_bounds_witness :
    0 ≤ compositeScore 1 (1 / 2) 1 0 (3 / 4) ∧
      compositeScore 1 (1 / 2) 1 0 (3 / 4) ≤ 1 :=
  composite_weights_bounds.2 1 (1 / 2) 1 0 (3 / 4) (by norm_num) (by norm_num)
    (by norm_num) (by norm_num) (by norm_num) (by norm_num) (by norm_num)
    (by norm_num) (by norm_num) (by norm_num)

/-- C7: the initial client state has no session identifier, every issued
request carries exactly the client's current (truthy) identifier — so the
first request omits it — a truthy identifier on a response is captured
verbatim, and a response without one leaves the identifier unchanged. -/
theorem session_id_resolution :
    initialClientState.sessionId = none ∧
    (∀ (f : TurnRequest → Except Unit TurnResponse) (st st' : ClientState)
      (req : TurnRequest),
      sendMessage f st = (st', some req) → req.sessionId = truthyOpt st.sessionId) ∧
    (∀ (f : TurnRequest → Except Unit TurnResponse) (st : ClientState)
      (data : TurnResponse) (sid : List Char),
      (trimStr st.input).isEmpty = false → st.ended = false →
      f (mkTurnRequest st) = .ok data →
      truthyOpt data.sessionId = some sid →
      ((sendMessage f st).1).sessionId = some sid) ∧
    (∀ (f : TurnRequest → Except Unit TurnResponse) (st : ClientState)
      (data : TurnResponse),
      (trimStr st.input).isEmpty = false → st.ended = false →
      f (mkTurnRequest st) = .ok data →
      truthyOpt data.sessionId = none →
      ((sendMessage f st).1).sessionId = st.sessionId) ∧
    (∀ (o : Option (List Char)) (sid : List Char),
      truthyOpt o = some sid → truthyOpt (some sid) = some sid) := by
  refine ⟨rfl, ?_, ?_, ?_, ?_⟩
  · intro f st st' req h
    unfold sendMessage at h
    by_cases hg : ((trimStr st.input).isEmpty || st.ended) = true
    · rw [if_pos hg] at h
      simp at h
    · rw [if_neg hg] at h
      cases hf : f (mkTurnRequest st) with
      | error e =>
        rw [hf] at h
        have h2 := congrArg Prod.snd h
        simp only at h2
        injection h2 with hreq
        rw [← hreq]
        rfl
      | ok data =>
        rw [hf] at h
        have h2 := congrArg Prod.snd h
        simp only at h2
        injection h2 with hreq
        rw [← hreq]
        rfl
  · intro f st data sid hin hend hreq hsid
    unfold sendMessage
    rw [hin, hend]
    simp only [Bool.or_self, Bool.false_eq_true, if_false]
    rw [hreq]
    rcases h2 : truthyOpt data.reply with _ | rep <;>
      by_cases hc : (data.conversationEnded || data.status == some ("ended".data)) = true <;>
        simp [hsid, h2, hc]
  · intro f st data hin hend hreq hsid
    unfold sendMessage
    rw [hin, hend]
    simp only [Bool.or_self, Bool.false_eq_true, if_false]
    rw [hreq]
    rcases h2 : truthyOpt data.reply with _ | rep <;>
      by_cases hc : (data.conversationEnded || data.status == some ("ended".data)) = true <;>
        simp [hsid, h2, hc]
  · intro o sid h
    cases o with
    | none => cases h
    | some s =>
      simp only [truthyOpt] at h ⊢
      by_cases hs : s.isEmpty = true
      · rw [if_pos hs] at h
        cases h
      · rw [if_neg hs] at h
        injection h with hse
        subst hse
        rw [if_neg hs]

/-- Witness for C7: the first turn of a conversation omits the identifier
and captures the one the backend returns. -/
theorem session_id_resolution_witness :
    initialClientState.sessionId = none ∧
    c7Req.sessionId = truthyOpt c7State.sessionId ∧
    ((sendMessage c7Fetch c7State).1).sessionId = some ("hp_1".data) ∧
    truthyOpt (some ("hp_1".data)) = some ("hp_1".data) :=
  ⟨session_id_resolution.1,
    session_id_resolution.2.1 c7Fetch c7State c7Next c7Req (by decide),
    session_id_resolution.2.2.1 c7Fetch c7State c7Resp ("hp_1".data) (by decide)
      rfl rfl (by decide),
    session_id_resolution.2.2.2.2 c7Resp.sessionId ("hp_1".data) (by decide)⟩

/-- C8: a session is created lazily on first contact — an id absent from
the store is materialised from the same defaults `addSession` uses — and a
newly created session starts in dialogue state INIT with an empty message
history, score 0, and every intel category empty. -/
theorem session_lazy_init :
    (∀ (store : SessionStore) (id : List Char) (now : Nat), store id = none →
      getOrCreate store id now = newSession id now) ∧
    (∀ (store : SessionStore) (id : List Char) (now : Nat),
      addSession store id now id = some (newSession id now)) ∧
    (∀ (id : List Char) (now : Nat),
      (newSession id now).state = ("INIT".data) ∧
      (newSession id now).messages = [] ∧
      (newSession id now).score = 0 ∧
      (newSession id now).intel =
        { phoneNumbers := [], upiIds := [], phishingLinks := [],
          bankAccounts := [], suspiciousKeywords := [] }) := by
  refine ⟨?_, ?_, ?_⟩
  · intro store id now h
    unfold getOrCreate
    rw [h]
  · intro store id now
    unfold addSession
    rw [if_pos rfl]
  · intro id now
    exact ⟨rfl, rfl, rfl, rfl⟩

/-- Witness for C8: creating a session for an id unknown to the empty
store yields the INIT defaults. -/
theorem session_lazy_init_witness :
    emptyStore ("s9".data) = none ∧
    getOrCreate emptyStore ("s9".data) 7 = newSession ("s9".data) 7 ∧
    (newSession ("s9".data) 7).state = ("INIT".data) :=
  ⟨rfl, session_lazy_init.1 emptyStore ("s9".data) 7 rfl,
    (session_lazy_init.2.2 ("s9".data) 7).1⟩

/-- C9: masking is the identity whenever the visibility flag is set, and
masking the empty string returns it unchanged regardless of the flag. -/
theorem maskPII_visible_identity :
    (∀ text : List Char, maskPII text true = text) ∧
    (∀ visible : Bool, maskPII [] visible = []) := by
  constructor
  · intro text
    simp [maskPII]
  · intro visible
    simp [maskPII]

/-- C10: for every intel bundle and every list of detected tactics, the
risk score lies between the base score 5 and the cap 100 inclusive. -/
theorem computeRisk_bounds (intel : Intel) (tactics : List TacticDef) :
    5 ≤ computeRisk intel tactics ∧ computeRisk intel tactics ≤ 100 := by
  unfold computeRisk
  exact ⟨le_min (by norm_num) (by omega), min_le_left _ _⟩

end HP
